import Mathlib

/-!
# Verification of the InnerLoopBuddy task-triggered launch pipeline

Shallow embedding of the matching, scope, task-monitor, launch-behavior and
availability-probe logic of the InnerLoopBuddy VS Code extension
(`src/taskmonitor.ts`, `src/extension.ts`), together with theorems settling
the specification's claims about it.

Task descriptors and criteria rules are arbitrary JSON-like values
(`taskmonitor.ts` declares `TaskCriteria = { [name: string]: any }` and
matches them against `vscode.Task` instances with lodash's `_.isMatch`,
lodash `^4.17.21` per `package.json`). We model them with the `JValue`
inductive below; JavaScript numbers are modelled as integers (the matcher
only ever compares them for equality).
-/

namespace InnerLoopBuddy

/-- JSON-like values: the common shape of task descriptors and criteria
rules. Objects are association lists of named fields in insertion order
(JavaScript object keys are unique; the list form is the shallow embedding
of that). -/
inductive JValue where
  | null : JValue
  | bool (b : Bool) : JValue
  | num (n : Int) : JValue
  | str (s : String) : JValue
  | arr (elements : List JValue) : JValue
  | obj (fields : List (String × JValue)) : JValue

namespace JValue

/-- lodash `isStrictComparable`: primitive values (compared with `===` by
`baseIsMatch`); objects and arrays go through the deep partial comparison. -/
def isPrim : JValue → Bool
  | .null => true
  | .bool _ => true
  | .num _ => true
  | .str _ => true
  | .arr _ => false
  | .obj _ => false

end JValue

mutual

/-- Structural equality of JSON values: the model of JavaScript `===` /
full `baseIsEqual` on JSON data (no object identity in a value model). -/
def jbeq : JValue → JValue → Bool
  | .null, b => match b with | .null => true | _ => false
  | .bool x, b => match b with | .bool y => x == y | _ => false
  | .num x, b => match b with | .num y => x == y | _ => false
  | .str x, b => match b with | .str y => x == y | _ => false
  | .arr s, b => match b with | .arr o => jbeqList s o | _ => false
  | .obj s, b => match b with | .obj o => jbeqFields s o | _ => false
termination_by a b => (sizeOf a, 0)

/-- Element-wise structural equality of JSON arrays. -/
def jbeqList : List JValue → List JValue → Bool
  | [], o => o.isEmpty
  | x :: xs, o =>
    match o with
    | [] => false
    | y :: ys => jbeq x y && jbeqList xs ys
termination_by s o => (sizeOf s, 0)

/-- Field-wise structural equality of JSON objects (same fields in the same
order; JavaScript objects with the same keys and values in the same
insertion order). -/
def jbeqFields : List (String × JValue) → List (String × JValue) → Bool
  | [], o => o.isEmpty
  | (k, v) :: fs, o =>
    match o with
    | [] => false
    | (k', w) :: gs => k == k' && jbeq v w && jbeqFields fs gs
termination_by s o => (sizeOf s, 0)

end

mutual

/-- lodash `baseIsEqual` with `COMPARE_PARTIAL_FLAG | COMPARE_UNORDERED_FLAG`,
as invoked from `baseIsMatch` (the engine of `_.isMatch`, used by
`taskMatchesCriteria`, `taskmonitor.ts` lines 69-71). First argument is the
source (rule-side) value, second the candidate (task-side) value. Values of
different shapes never compare equal; primitives compare by value; objects
compare by the rule's own fields only (`equalObjects` with the partial flag);
arrays compare via `equalArrays` with the partial and unordered flags: the
candidate array must be at least as long, and each rule element greedily
claims the first not-yet-claimed candidate element it partially equals. -/
def partialEq : JValue → JValue → Bool
  | .null, b => match b with | .null => true | _ => false
  | .bool x, b => match b with | .bool y => x == y | _ => false
  | .num x, b => match b with | .num y => x == y | _ => false
  | .str x, b => match b with | .str y => x == y | _ => false
  | .arr s, b =>
    match b with
    | .arr o => decide (s.length ≤ o.length) && greedyAll s o
    | _ => false
  | .obj s, b =>
    match b with
    | .obj o => fieldsMatch s o
    | _ => false
termination_by a b => (sizeOf a, 0)

/-- The field loop of lodash `equalObjects` under the partial flag: every
field of the source object must be present in the candidate and its value
must partially equal the candidate's value for that key. -/
def fieldsMatch : List (String × JValue) → List (String × JValue) → Bool
  | [], _ => true
  | (k, v) :: rest, o =>
    (match o.lookup k with
     | some w => partialEq v w
     | none => false) && fieldsMatch rest o
termination_by s o => (sizeOf s, 0)

/-- The element loop of lodash `equalArrays` under the unordered flag: each
source element, in order, consumes the first still-available candidate
element it partially equals (the `seen` index cache modelled by removing the
consumed element from the availability list). -/
def greedyAll : List JValue → List JValue → Bool
  | [], _ => true
  | x :: xs, avail =>
    match extractFirst x avail with
    | some rest => greedyAll xs rest
    | none => false
termination_by s avail => (sizeOf s, 0)

/-- Scan for the first available candidate element partially equal to `x`;
on success return the remaining availability list. -/
def extractFirst : JValue → List JValue → Option (List JValue)
  | _, [] => none
  | x, y :: ys => if partialEq x y then some ys else (extractFirst x ys).map (fun r => y :: r)
termination_by x ys => (sizeOf x, sizeOf ys)

end

/-- lodash `getMatchData` / own enumerable properties of a value (`keys`):
objects expose their named fields; arrays and strings are array-like and
expose index keys `"0"`, `"1"`, … (string characters as one-character
strings, as JavaScript indexing yields); `null`, booleans and numbers have
no own enumerable properties. -/
def matchData : JValue → List (String × JValue)
  | .obj fs => fs
  | .arr xs => xs.enum.map (fun p => (toString p.1, p.2))
  | .str s => s.data.enum.map (fun p => (toString p.1, .str (String.mk [p.2])))
  | _ => []

/-- Property access `value[key]` on a JSON value (JavaScript member lookup
restricted to own enumerable properties, which is all that JSON data has):
`none` models `undefined`. -/
def lookupKey (v : JValue) (k : String) : Option JValue :=
  (matchData v).lookup k

/-- lodash `baseIsMatch`, the engine of `_.isMatch(object, source)`: when
the object is `null` the match succeeds exactly when the source has no own
enumerable properties; otherwise every property of the source must be
present on the object, strict-comparable (primitive) source values compared
with `===` and object/array source values compared with the partial
unordered deep comparison. -/
def isMatch (object rule : JValue) : Bool :=
  match object with
  | .null => (matchData rule).isEmpty
  | _ =>
    (matchData rule).all (fun kv =>
      match lookupKey object kv.1 with
      | some objValue =>
        if kv.2.isPrim then jbeq objValue kv.2 else partialEq kv.2 objValue
      | none => false)

/-- Source `taskMatchesCriteria` (`taskmonitor.ts` lines 69-71):
`criteria.some((c) => _.isMatch(task, c))`. -/
def taskMatchesCriteria (task : JValue) (criteria : List JValue) : Bool :=
  criteria.any (fun c => isMatch task c)

mutual

/-- The deep-subset match in the specification's words (spec §4.1 and claim
C1: "every field present in the rule is present in T with an equal value,
recursing into object-valued fields"): fields are what object rules have;
an object-valued rule field recurses, any other rule field value must be
structurally equal to the candidate's value for that key. Used only to
compare the specified matcher against the implemented one. -/
def specDeepSubsetMatch : JValue → JValue → Bool
  | .obj rf, t => specFieldsMatch rf t
  | _, _ => true
termination_by r _ => sizeOf r

/-- Field loop of `specDeepSubsetMatch`. -/
def specFieldsMatch : List (String × JValue) → JValue → Bool
  | [], _ => true
  | (k, v) :: rest, t =>
    (match lookupKey t k with
     | some w =>
       match v with
       | .obj f2 => specDeepSubsetMatch (.obj f2) w
       | _ => jbeq v w
     | none => false) && specFieldsMatch rest t
termination_by fs _ => sizeOf fs

end

/-! ## Scopes and the task monitor (`taskmonitor.ts`) -/

/-- Source `ActualTaskScope` (`taskmonitor.ts` line 19):
`vscode.TaskScope.Global | vscode.TaskScope.Workspace | vscode.WorkspaceFolder
| undefined`. A workspace folder is identified by its URI string (spec §3:
"Folder identifier is a stable, unique location string"). -/
inductive ActualTaskScope where
  | global : ActualTaskScope
  | workspace : ActualTaskScope
  | folder (uri : String) : ActualTaskScope
  | undef : ActualTaskScope
deriving DecidableEq, Repr

/-- Source `isWorkspaceTaskScope` (`taskmonitor.ts` lines 91-94): anything that is
neither `TaskScope.Global` nor `TaskScope.Workspace` (so also `undefined`). -/
def isWorkspaceTaskScope : ActualTaskScope → Bool
  | .global => false
  | .workspace => false
  | _ => true

/-- Source `keyFromScope` (`taskmonitor.ts` lines 138-144): non-folder scopes map to
the sentinel `"global"`; a folder maps to `uri.toString()`. On an `undefined`
scope the source dereferences `scope!.uri`, a TypeError at runtime, modelled
as `none`. -/
def keyFromScope (scope : ActualTaskScope) : Option String :=
  if !isWorkspaceTaskScope scope then some "global"
  else
    match scope with
    | .folder uri => some uri
    | _ => none

/-- The `{criteria, mode}` record produced by a
`TaskMonitoringConfigurationResolver` (`taskmonitor.ts` line 61). The mode is
kept as the raw configuration value (`Option String`): the source casts an
arbitrary settings value with `<MonitoringMode>(...)`, so any string, or an
unset value, can appear; `MonitoringMode.Matching = "matching"`. -/
structure MonitoringConfig where
  criteria : List JValue
  mode : Option String

/-- A resolver from a task's scope to the monitoring configuration. -/
abbrev ConfigResolver := ActualTaskScope → MonitoringConfig

/-- An executing task as seen through `vscode.tasks.taskExecutions`: the
task's matchable descriptor together with its scope. -/
structure RunningTask where
  task : JValue
  scope : ActualTaskScope

/-- Source `isMatchingTaskRunning` (`taskmonitor.ts` lines 79-86): the first
executing task whose scope-resolved criteria it matches. -/
def isMatchingTaskRunning (resolver : ConfigResolver)
    (executions : List RunningTask) : Option RunningTask :=
  executions.find? (fun t => taskMatchesCriteria t.task (resolver t.scope).criteria)

/-- JavaScript `Map.get(key) || 0` on the occurrence map. -/
def occGet (m : List (String × Nat)) (k : String) : Nat :=
  (m.lookup k).getD 0

/-- JavaScript `Map.set(key, v)`: replace the binding if present, else append it. -/
def occSet : List (String × Nat) → String → Nat → List (String × Nat)
  | [], k, v => [(k, v)]
  | (k', v') :: rest, k, v =>
    if k' = k then (k, v) :: rest else (k', v') :: occSet rest k v

/-- The mutable state of a `TaskMonitor` instance: whether the
`onDidStartTask` subscription is live (`subscriptions` non-empty) and the
per-scope-key occurrence counters (`scopedOccurances`). -/
structure TaskMonitorState where
  subscribed : Bool
  scopedOccurances : List (String × Nat)
deriving DecidableEq, Repr

/-- Source `MatchedExecutionOccured` (`taskmonitor.ts` lines 40-51), the payload of
`onDidMatchingTaskExecute`. -/
structure MatchedExecutionOccured where
  occurances : Nat
  scope : ActualTaskScope
deriving DecidableEq, Repr

/-- A `vscode.TaskStartEvent`: the starting task's descriptor and scope. -/
structure TaskStartEvent where
  task : JValue
  scope : ActualTaskScope

/-- The `TaskMonitor` constructor (`taskmonitor.ts` lines 162-169):
subscribes to `onDidStartTask`, and if a matching task is already running,
seeds that task's scope key with occurrence count 1. The constructor contains
no `fire` call, so it emits no event; the returned event list is empty.
`none` models the TypeError thrown by `keyFromScope` when the found task's
scope is `undefined`. -/
def constructTaskMonitor (resolver : ConfigResolver) (executions : List RunningTask) :
    Option (TaskMonitorState × List MatchedExecutionOccured) :=
  match isMatchingTaskRunning resolver executions with
  | some t =>
    match keyFromScope t.scope with
    | some k => some ({ subscribed := true, scopedOccurances := [(k, 1)] }, [])
    | none => none
  | none => some ({ subscribed := true, scopedOccurances := [] }, [])

/-- Source `handleTaskStarting` (`taskmonitor.ts` lines 179-201): if the task does
not match the resolved criteria and the resolved mode is exactly
`"matching"`, return without touching state; otherwise increment the
occurrence counter for the task's scope key (defaulting to 0) and fire the
event with the new count. `none` models the TypeError thrown by
`keyFromScope` on an `undefined` scope (raised before any state mutation). -/
def handleTaskStarting (resolver : ConfigResolver) (state : TaskMonitorState)
    (e : TaskStartEvent) : Option (TaskMonitorState × Option MatchedExecutionOccured) :=
  let config := resolver e.scope
  if !taskMatchesCriteria e.task config.criteria && config.mode == some "matching" then
    some (state, none)
  else
    match keyFromScope e.scope with
    | none => none
    | some key =>
      let executedCount := occGet state.scopedOccurances key + 1
      some ({ state with scopedOccurances := occSet state.scopedOccurances key executedCount },
        some { occurances := executedCount, scope := e.scope })

/-- Source `TaskMonitor.dispose` (`taskmonitor.ts` lines 174-177): disposes the
subscriptions (unsubscribing from `onDidStartTask`) and resets the
subscription list. `scopedOccurances` is not touched. -/
def dispose (state : TaskMonitorState) : TaskMonitorState :=
  { state with subscribed := false }

/-- Delivery of one `onDidStartTask` notification by the host: the handler
runs only while the monitor's subscription is live. A handler that throws
(undefined scope) mutates nothing and emits nothing — `keyFromScope` runs
before any state write — and the host isolates the exception, so delivery
continues for later events. -/
def deliverTaskStart (resolver : ConfigResolver) (state : TaskMonitorState)
    (e : TaskStartEvent) : TaskMonitorState × Option MatchedExecutionOccured :=
  if state.subscribed then
    match handleTaskStarting resolver state e with
    | some r => r
    | none => (state, none)
  else (state, none)

/-- Deliver a list of task-start notifications in order, collecting the
emitted `MatchedExecutionOccured` events. -/
def runMonitor (resolver : ConfigResolver) (state : TaskMonitorState) :
    List TaskStartEvent → TaskMonitorState × List MatchedExecutionOccured
  | [] => (state, [])
  | e :: rest =>
    let (s1, emitted) := deliverTaskStart resolver state e
    let (s2, out) := runMonitor resolver s1 rest
    (s2, emitted.toList ++ out)

/-! ## Launch behavior (`extension.ts`) -/

/-- The launch decision of `InnerLoopBuddyExtension.handleMatchedTaskExecution`
(`extension.ts` lines 389-410): the behaviour setting is read as a raw
configuration value (`MatchedTaskBehaviour` strings `"none"`, `"onetime"`,
`"everytime"`); `"everytime"` always opens the browser, `"onetime"` opens it
exactly when `e.occurances < 2`, and `"none"` — like any unrecognized value,
via the `default` arm — never opens it. -/
def shouldOpenBrowser (behaviour : Option String) (e : MatchedExecutionOccured) : Bool :=
  if behaviour == some "everytime" then true
  else if behaviour == some "onetime" then decide (e.occurances < 2)
  else false

/-! ## Availability probe (`extension.ts`) -/

/-- Source `AVAILABILITY_CHECK_INCREMENT_MS` (`extension.ts` line 19). -/
def AVAILABILITY_CHECK_INCREMENT_MS : Nat := 100

/-- Source `waitForHostToBeAvailable` (`extension.ts` lines 306-336). Time is an
explicit millisecond counter (`Date.now()`); the outcome of a connection
attempt for each address family at a given instant is an oracle
`check4 / check6 : Nat → Bool` — this is the model of `checkSocket`
(lines 281-296), whose promise resolves `true` on connect and `false` on any
socket error (errors are absorbed, never thrown). Connect attempts are
modelled as instantaneous and the inter-iteration delay as exactly
`AVAILABILITY_CHECK_INCREMENT_MS`. While `now < deadline`: try IPv4, then
IPv6, returning `true` on the first success; otherwise sleep and retry;
once `now ≥ deadline`, return `false`. -/
def waitForHostToBeAvailable (check4 check6 : Nat → Bool) (deadline now : Nat) : Bool :=
  if now < deadline then
    if check4 now then true
    else if check6 now then true
    else waitForHostToBeAvailable check4 check6 deadline (now + AVAILABILITY_CHECK_INCREMENT_MS)
  else false
termination_by deadline - now
decreasing_by simp [AVAILABILITY_CHECK_INCREMENT_MS]; omega

mutual

/-- Well-formedness of a JSON value as JavaScript data: object keys are
unique at every level. A JavaScript object cannot carry duplicate keys; the
association-list embedding can, so statements about actual JavaScript data
assume this. -/
def wfJ : JValue → Bool
  | .arr xs => wfList xs
  | .obj fs => wfFields fs
  | _ => true
termination_by v => sizeOf v

/-- All elements of an array well-formed. -/
def wfList : List JValue → Bool
  | [] => true
  | x :: xs => wfJ x && wfList xs
termination_by xs => sizeOf xs

/-- Keys pairwise distinct, all field values well-formed. -/
def wfFields : List (String × JValue) → Bool
  | [] => true
  | (k, v) :: fs => (fs.lookup k).isNone && wfJ v && wfFields fs
termination_by fs => sizeOf fs

end

mutual

/-- The property names a rule value can look up below the top level while
matching: object field names, recursively through field values and array
elements. (The deep comparison matches arrays positionally and strings and
other primitives by value, so only object keys are looked up deep.) -/
def jkeys : JValue → List String
  | .obj fs => jkeysFields fs
  | .arr xs => jkeysList xs
  | _ => []
termination_by v => sizeOf v

/-- Keys looked up inside any element of an array. -/
def jkeysList : List JValue → List String
  | [] => []
  | x :: xs => jkeys x ++ jkeysList xs
termination_by xs => sizeOf xs

/-- Keys looked up inside an object: each field name and the keys inside
its value. -/
def jkeysFields : List (String × JValue) → List String
  | [] => []
  | (k, v) :: fs => k :: (jkeys v ++ jkeysFields fs)
termination_by fs => sizeOf fs

end

/-- Every property name the matcher can ever look up for a rule: the rule's
own top-level property keys (object field names; index keys of array and
string rules) together with all keys mentioned deeper inside it. -/
def ruleKeys (r : JValue) : List String :=
  (matchData r).map Prod.fst ++ jkeys r

mutual

/-- Relation `Extends S t t'`: the task `t'` is obtained from `t` by adding object
fields — anywhere, at any depth — whose names do not satisfy `S` (read: are
not mentioned in any rule under consideration). Primitive leaves and array
lengths are untouched. -/
inductive Extends (S : String → Prop) : JValue → JValue → Prop where
  | null : Extends S .null .null
  | bool (b : Bool) : Extends S (.bool b) (.bool b)
  | num (n : Int) : Extends S (.num n) (.num n)
  | str (s : String) : Extends S (.str s) (.str s)
  | arr {xs ys : List JValue} : ExtendsList S xs ys → Extends S (.arr xs) (.arr ys)
  | obj {fs gs : List (String × JValue)} : ExtendsFields S fs gs →
      Extends S (.obj fs) (.obj gs)

/-- Pointwise extension of array elements (same length). -/
inductive ExtendsList (S : String → Prop) : List JValue → List JValue → Prop where
  | nil : ExtendsList S [] []
  | cons {x y : JValue} {xs ys : List JValue} : Extends S x y → ExtendsList S xs ys →
      ExtendsList S (x :: xs) (y :: ys)

/-- Extension of an object's field list: each original field is kept in
order (with its value recursively extended) and new fields with names
outside `S` may be inserted anywhere. -/
inductive ExtendsFields (S : String → Prop) :
    List (String × JValue) → List (String × JValue) → Prop where
  | nil : ExtendsFields S [] []
  | keep {k : String} {v w : JValue} {fs gs : List (String × JValue)} :
      Extends S v w → ExtendsFields S fs gs →
      ExtendsFields S ((k, v) :: fs) ((k, w) :: gs)
  | insert {k : String} {w : JValue} {fs gs : List (String × JValue)} :
      ¬ S k → ExtendsFields S fs gs → ExtendsFields S fs ((k, w) :: gs)

end

/-- Resolver for the C2 counterexample: every scope monitors one empty rule
(which matches every task) in "matching" mode. -/
def c2Resolver : ConfigResolver := fun _ => ⟨[JValue.obj []], some "matching"⟩

/-- Running snapshot for the C2 counterexample: matching tasks already
running in two distinct folder scopes. -/
def c2Executions : List RunningTask :=
  [⟨.obj [], .folder "A"⟩, ⟨.obj [], .folder "B"⟩]

/-- The resolver used by the C9 witness: no criteria, unset monitoring mode. -/
def c9Resolver : ConfigResolver := fun _ => ⟨[], none⟩

/-! ## Helper lemmas -/

/-- The empty rule object has no own properties, so `_.isMatch` accepts every
task against it. -/
theorem isMatch_emptyObj (task : JValue) : isMatch task (.obj []) = true := by
  cases task <;> simp [isMatch, matchData]

/-- Rules with no own enumerable properties (`null`, booleans, numbers)
vacuously match every task. -/
theorem isMatch_keyless (task rule : JValue) (h : matchData rule = []) :
    isMatch task rule = true := by
  cases task <;> simp [isMatch, h]

theorem taskMatchesCriteria_cons (task r : JValue) (rest : List JValue) :
    taskMatchesCriteria task (r :: rest) =
      (isMatch task r || taskMatchesCriteria task rest) := by
  simp [taskMatchesCriteria]

theorem wfList_mem {xs : List JValue} (h : wfList xs = true) {x : JValue}
    (hx : x ∈ xs) : wfJ x = true := by
  induction xs with
  | nil => cases hx
  | cons y ys ih =>
    rw [wfList, Bool.and_eq_true] at h
    rcases List.mem_cons.mp hx with rfl | hx'
    · exact h.1
    · exact ih h.2 hx'

theorem wfFields_cons {k : String} {v : JValue} {fs : List (String × JValue)}
    (h : wfFields ((k, v) :: fs) = true) :
    (fs.lookup k).isNone = true ∧ wfJ v = true ∧ wfFields fs = true := by
  rw [wfFields, Bool.and_eq_true, Bool.and_eq_true] at h
  exact ⟨h.1.1, h.1.2, h.2⟩

theorem wfFields_mem {fs : List (String × JValue)} (h : wfFields fs = true)
    {kv : String × JValue} (hkv : kv ∈ fs) : wfJ kv.2 = true := by
  induction fs with
  | nil => cases hkv
  | cons p ps ih =>
    obtain ⟨k, v⟩ := p
    rcases List.mem_cons.mp hkv with rfl | hkv'
    · exact (wfFields_cons h).2.1
    · exact ih (wfFields_cons h).2.2 hkv'

/-- In an object with unique keys, looking up the key of any field yields
that field's value. -/
theorem wfFields_lookup_mem {fs : List (String × JValue)} (h : wfFields fs = true)
    {k : String} {v : JValue} (hkv : (k, v) ∈ fs) : fs.lookup k = some v := by
  induction fs with
  | nil => cases hkv
  | cons p ps ih =>
    obtain ⟨k0, v0⟩ := p
    obtain ⟨hnone, _, hps⟩ := wfFields_cons h
    rcases List.mem_cons.mp hkv with heq | hkv'
    · cases heq
      simp [List.lookup]
    · have hlk : ps.lookup k = some v := ih hps hkv'
      have hne : (k == k0) = false := by
        by_contra hcon
        have : k = k0 := by
          have := Bool.of_not_eq_false hcon
          exact eq_of_beq this
        subst this
        rw [hlk] at hnone
        simp at hnone
      simp [List.lookup, hne, hlk]

/-- If every field of `rest` is found (with a partially-self-equal value) in
the candidate object `fs`, the field loop succeeds. -/
theorem fieldsMatch_of_lookup (fs : List (String × JValue)) :
    ∀ rest : List (String × JValue),
      (∀ kv ∈ rest, fs.lookup kv.1 = some kv.2 ∧ partialEq kv.2 kv.2 = true) →
      fieldsMatch rest fs = true := by
  intro rest
  induction rest with
  | nil => intro _; rw [fieldsMatch]
  | cons kv rest ih =>
    intro h
    obtain ⟨hl, hp⟩ := h kv (List.mem_cons_self ..)
    obtain ⟨k, v⟩ := kv
    rw [fieldsMatch]
    simp only [hl, hp, Bool.and_eq_true]
    exact ⟨trivial, ih fun kv' hkv' => h kv' (List.mem_cons_of_mem _ hkv')⟩

/-- The greedy unordered array loop succeeds on an array matched against
itself when each element partially equals itself. -/
theorem greedyAll_refl (xs : List JValue) (h : ∀ x ∈ xs, partialEq x x = true) :
    greedyAll xs xs = true := by
  induction xs with
  | nil => rw [greedyAll]
  | cons x xs ih =>
    have hx := h x (List.mem_cons_self ..)
    rw [greedyAll, extractFirst]
    simp only [hx, if_true]
    exact ih fun y hy => h y (List.mem_cons_of_mem _ hy)

/-- On well-formed JavaScript data, the partial comparison is reflexive:
every value partially equals itself (full equality is sufficient for a
partial match). -/
theorem partialEq_refl (a : JValue) (h : wfJ a = true) : partialEq a a = true := by
  have main : ∀ n : Nat, ∀ a : JValue, sizeOf a ≤ n → wfJ a = true →
      partialEq a a = true := by
    intro n
    induction n using Nat.strong_induction_on with
    | _ n IH =>
      intro a hsize hwf
      match a with
      | .null => rw [partialEq]
      | .bool b => rw [partialEq]; simp
      | .num m => rw [partialEq]; simp
      | .str s => rw [partialEq]; simp
      | .arr xs =>
        rw [partialEq]
        simp only [Bool.and_eq_true, decide_eq_true_eq]
        refine ⟨le_refl _, greedyAll_refl xs fun x hx => ?_⟩
        have h1 : sizeOf x < sizeOf xs := List.sizeOf_lt_of_mem hx
        have h2 : sizeOf (JValue.arr xs) = 1 + sizeOf xs := by simp
        exact IH (sizeOf x) (by omega) x le_rfl
          (wfList_mem (by rw [wfJ] at hwf; exact hwf) hx)
      | .obj fs =>
        rw [partialEq]
        have hwff : wfFields fs = true := by rw [wfJ] at hwf; exact hwf
        refine fieldsMatch_of_lookup fs fs fun kv hkv => ?_
        obtain ⟨k, v⟩ := kv
        refine ⟨wfFields_lookup_mem hwff hkv, ?_⟩
        have h1 : sizeOf (k, v) < sizeOf fs := List.sizeOf_lt_of_mem hkv
        have h2 : sizeOf v < sizeOf (k, v) := by simp
        have h3 : sizeOf (JValue.obj fs) = 1 + sizeOf fs := by simp
        exact IH (sizeOf v) (by omega) v le_rfl (wfFields_mem hwff hkv)
  exact main (sizeOf a) a le_rfl h

theorem Extends_refl (S : String → Prop) (v : JValue) : Extends S v v := by
  have main : ∀ n : Nat,
      (∀ v : JValue, sizeOf v ≤ n → Extends S v v) ∧
      (∀ xs : List JValue, sizeOf xs ≤ n → ExtendsList S xs xs) ∧
      (∀ fs : List (String × JValue), sizeOf fs ≤ n → ExtendsFields S fs fs) := by
    intro n
    induction n using Nat.strong_induction_on with
    | _ n IH =>
      refine ⟨?_, ?_, ?_⟩
      · intro v hv
        match v with
        | .null => exact .null
        | .bool b => exact .bool b
        | .num m => exact .num m
        | .str s => exact .str s
        | .arr xs =>
          have hs : sizeOf (JValue.arr xs) = 1 + sizeOf xs := by simp
          exact .arr ((IH (sizeOf xs) (by omega)).2.1 xs le_rfl)
        | .obj fs =>
          have hs : sizeOf (JValue.obj fs) = 1 + sizeOf fs := by simp
          exact .obj ((IH (sizeOf fs) (by omega)).2.2 fs le_rfl)
      · intro xs hxs
        match xs with
        | [] => exact .nil
        | x :: rest =>
          have hs : sizeOf (x :: rest) = 1 + sizeOf x + sizeOf rest := by simp
          exact .cons ((IH (sizeOf x) (by omega)).1 x le_rfl)
            ((IH (sizeOf rest) (by omega)).2.1 rest le_rfl)
      · intro fs hfs
        match fs with
        | [] => exact .nil
        | (k, v) :: rest =>
          have hs : sizeOf ((k, v) :: rest) = 1 + (1 + sizeOf k + sizeOf v) + sizeOf rest := by
            simp
          exact .keep ((IH (sizeOf v) (by omega)).1 v le_rfl)
            ((IH (sizeOf rest) (by omega)).2.2 rest le_rfl)
  exact (main (sizeOf v)).1 v le_rfl

theorem ExtendsList_length {S : String → Prop} :
    ∀ {ys xs : List JValue}, ExtendsList S xs ys → xs.length = ys.length := by
  intro ys
  induction ys with
  | nil => intro xs h; cases h; rfl
  | cons y ys0 ih =>
    intro xs h
    cases h with
    | cons hxy hrest => simpa using ih hrest

/-- Structural equality with a fixed primitive is invariant under field
extension: extension preserves primitive leaves exactly and never changes a
value's shape. -/
theorem jbeq_extends {S : String → Prop} {w w' : JValue} (h : Extends S w w')
    (p : JValue) (hp : p.isPrim = true) : jbeq w p = jbeq w' p := by
  cases h with
  | null => rfl
  | bool b => rfl
  | num n => rfl
  | str s => rfl
  | arr _ =>
    cases p with
    | arr _ => simp [JValue.isPrim] at hp
    | obj _ => simp [JValue.isPrim] at hp
    | null => simp [jbeq]
    | bool _ => simp [jbeq]
    | num _ => simp [jbeq]
    | str _ => simp [jbeq]
  | obj _ =>
    cases p with
    | arr _ => simp [JValue.isPrim] at hp
    | obj _ => simp [JValue.isPrim] at hp
    | null => simp [jbeq]
    | bool _ => simp [jbeq]
    | num _ => simp [jbeq]
    | str _ => simp [jbeq]

/-- Looking up a key that the rules mention is unaffected by inserting
fields whose names the rules do not mention: either both objects lack the
key, or both carry it with values related by extension. -/
theorem ExtendsFields_lookup {S : String → Prop} {k : String} (hk : S k) :
    ∀ {gs fs : List (String × JValue)}, ExtendsFields S fs gs →
    (fs.lookup k = none ∧ gs.lookup k = none) ∨
    (∃ v w, fs.lookup k = some v ∧ gs.lookup k = some w ∧ Extends S v w) := by
  intro gs
  induction gs with
  | nil =>
    intro fs h
    cases h
    exact Or.inl ⟨rfl, rfl⟩
  | cons p gs0 ih =>
    intro fs h
    obtain ⟨k0, w0⟩ := p
    cases h with
    | @keep _ v _ fs0 _ hvw hrest =>
      by_cases hkk : (k == k0) = true
      · exact Or.inr ⟨v, w0, by simp [List.lookup, hkk], by simp [List.lookup, hkk], hvw⟩
      · have hkk' : (k == k0) = false := by simpa using hkk
        rcases ih hrest with ⟨h1, h2⟩ | ⟨v', w', h1, h2, h3⟩
        · exact Or.inl ⟨by simp [List.lookup, hkk', h1], by simp [List.lookup, hkk', h2]⟩
        · exact Or.inr ⟨v', w', by simp [List.lookup, hkk', h1],
            by simp [List.lookup, hkk', h2], h3⟩
    | @insert _ _ _ _ hk0 hrest =>
      have hkk : (k == k0) = false := by
        by_contra hcon
        have : k = k0 := by
          have := Bool.of_not_eq_false hcon
          exact eq_of_beq this
        subst this
        exact hk0 hk
      rcases ih hrest with ⟨h1, h2⟩ | ⟨v', w', h1, h2, h3⟩
      · exact Or.inl ⟨h1, by simp [List.lookup, hkk, h2]⟩
      · exact Or.inr ⟨v', w', h1, by simp [List.lookup, hkk, h2], h3⟩

/-- Like `ExtendsFields_lookup` but for indexed lookup into the enumerated
key/value view of two pointwise-extended arrays. -/
theorem ExtendsList_enum_lookup {S : String → Prop} (k : String) :
    ∀ {ys xs : List JValue}, ExtendsList S xs ys → ∀ i : Nat,
      (((List.enumFrom i xs).map (fun p => (toString p.1, p.2))).lookup k = none ∧
        ((List.enumFrom i ys).map (fun p => (toString p.1, p.2))).lookup k = none) ∨
      (∃ v w, ((List.enumFrom i xs).map (fun p => (toString p.1, p.2))).lookup k = some v ∧
        ((List.enumFrom i ys).map (fun p => (toString p.1, p.2))).lookup k = some w ∧
        Extends S v w) := by
  intro ys
  induction ys with
  | nil =>
    intro xs h i
    cases h
    exact Or.inl ⟨rfl, rfl⟩
  | cons y ys0 ih =>
    intro xs h i
    cases h with
    | @cons x _ xs0 _ hxy hrest =>
      by_cases hkk : (k == toString i) = true
      · exact Or.inr ⟨x, y, by simp [List.enumFrom, List.lookup, hkk],
          by simp [List.enumFrom, List.lookup, hkk], hxy⟩
      · have hkk' : (k == toString i) = false := by simpa using hkk
        rcases ih hrest (i + 1) with ⟨h1, h2⟩ | ⟨v', w', h1, h2, h3⟩
        · exact Or.inl ⟨by simp [List.enumFrom, List.lookup, hkk', h1],
            by simp [List.enumFrom, List.lookup, hkk', h2]⟩
        · exact Or.inr ⟨v', w', by simp [List.enumFrom, List.lookup, hkk', h1],
            by simp [List.enumFrom, List.lookup, hkk', h2], h3⟩

theorem jkeysList_sub {x : JValue} :
    ∀ {xs : List JValue}, x ∈ xs → ∀ {k : String}, k ∈ jkeys x → k ∈ jkeysList xs := by
  intro xs
  induction xs with
  | nil => intro h; cases h
  | cons y ys ih =>
    intro hx k hk
    rw [jkeysList]
    rcases List.mem_cons.mp hx with rfl | hx'
    · exact List.mem_append_left _ hk
    · exact List.mem_append_right _ (ih hx' hk)

theorem jkeysFields_key {k : String} {v : JValue} :
    ∀ {fs : List (String × JValue)}, (k, v) ∈ fs → k ∈ jkeysFields fs := by
  intro fs
  induction fs with
  | nil => intro h; cases h
  | cons p ps ih =>
    intro h
    obtain ⟨k0, v0⟩ := p
    rw [jkeysFields]
    rcases List.mem_cons.mp h with heq | h'
    · cases heq
      exact List.mem_cons_self ..
    · exact List.mem_cons_of_mem _ (List.mem_append_right _ (ih h'))

theorem jkeysFields_val {k : String} {v : JValue} :
    ∀ {fs : List (String × JValue)}, (k, v) ∈ fs →
      ∀ {k' : String}, k' ∈ jkeys v → k' ∈ jkeysFields fs := by
  intro fs
  induction fs with
  | nil => intro h; cases h
  | cons p ps ih =>
    intro h k' hk'
    obtain ⟨k0, v0⟩ := p
    rw [jkeysFields]
    rcases List.mem_cons.mp h with heq | h'
    · cases heq
      exact List.mem_cons_of_mem _ (List.mem_append_left _ hk')
    · exact List.mem_cons_of_mem _ (List.mem_append_right _ (ih h' hk'))

theorem snd_mem_of_mem_enumFrom {α : Type _} {p : Nat × α} :
    ∀ {l : List α} {i : Nat}, p ∈ List.enumFrom i l → p.2 ∈ l := by
  intro l
  induction l with
  | nil => intro i h; cases h
  | cons a l ih =>
    intro i h
    simp only [List.enumFrom] at h
    rcases List.mem_cons.mp h with rfl | h'
    · exact List.mem_cons_self ..
    · exact List.mem_cons_of_mem _ (ih h')

theorem listAll_congr {α : Type _} {l : List α} {p q : α → Bool}
    (h : ∀ a ∈ l, p a = q a) : l.all p = l.all q := by
  induction l with
  | nil => rfl
  | cons a l ih =>
    simp only [List.all_cons, h a (List.mem_cons_self ..),
      ih fun b hb => h b (List.mem_cons_of_mem _ hb)]

theorem listAny_congr {α : Type _} {l : List α} {p q : α → Bool}
    (h : ∀ a ∈ l, p a = q a) : l.any p = l.any q := by
  induction l with
  | nil => rfl
  | cons a l ih =>
    simp only [List.any_cons, h a (List.mem_cons_self ..),
      ih fun b hb => h b (List.mem_cons_of_mem _ hb)]

/-- Scanning two pointwise-extended availability lists for an element
matching `x` either fails on both or succeeds at the same position, leaving
pointwise-extended remainders. -/
theorem extractFirst_extends {S : String → Prop} {x : JValue}
    (hx : ∀ {v v' : JValue}, Extends S v v' → partialEq x v = partialEq x v') :
    ∀ {ys xs : List JValue}, ExtendsList S xs ys →
      (extractFirst x xs = none ∧ extractFirst x ys = none) ∨
      (∃ r r', extractFirst x xs = some r ∧ extractFirst x ys = some r' ∧
        ExtendsList S r r') := by
  intro ys
  induction ys with
  | nil =>
    intro xs h
    cases h
    exact Or.inl ⟨by simp [extractFirst], by simp [extractFirst]⟩
  | cons y ys0 ih =>
    intro xs h
    cases h with
    | @cons x0 _ xs0 _ hxy hrest =>
      have heq : partialEq x x0 = partialEq x y := hx hxy
      by_cases hp : partialEq x x0 = true
      · exact Or.inr ⟨xs0, ys0, by simp [extractFirst, hp],
          by simp [extractFirst, ← heq, hp], hrest⟩
      · have hp' : partialEq x x0 = false := by simpa using hp
        have hpy : partialEq x y = false := by rw [← heq]; exact hp'
        rcases ih hrest with ⟨h1, h2⟩ | ⟨r, r', h1, h2, h3⟩
        · exact Or.inl ⟨by simp [extractFirst, hp', h1], by simp [extractFirst, hpy, h2]⟩
        · exact Or.inr ⟨x0 :: r, y :: r', by simp [extractFirst, hp', h1],
            by simp [extractFirst, hpy, h2], .cons hxy h3⟩

/-- The greedy array loop cannot tell two pointwise-extended availability
lists apart when no source element can. -/
theorem greedyAll_extends {S : String → Prop} :
    ∀ s : List JValue,
      (∀ x ∈ s, ∀ {v v' : JValue}, Extends S v v' → partialEq x v = partialEq x v') →
      ∀ {xs ys : List JValue}, ExtendsList S xs ys →
        greedyAll s xs = greedyAll s ys := by
  intro s
  induction s with
  | nil => intro _ xs ys _; simp [greedyAll]
  | cons a s0 ih =>
    intro hall xs ys h
    have ha : ∀ {v v' : JValue}, Extends S v v' → partialEq a v = partialEq a v' :=
      fun hvv => hall a (List.mem_cons_self ..) hvv
    rcases extractFirst_extends ha h with ⟨h1, h2⟩ | ⟨r, r', h1, h2, h3⟩
    · simp [greedyAll, h1, h2]
    · simp only [greedyAll, h1, h2]
      exact ih (fun x hx {v v'} hvv => hall x (List.mem_cons_of_mem _ hx) hvv) h3

/-- The object field loop cannot tell an object from its extension when all
looked-up keys are mentioned and no field value can tell extended values
apart. -/
theorem fieldsMatch_extends {S : String → Prop} :
    ∀ rest : List (String × JValue),
      (∀ kv ∈ rest, S kv.1 ∧
        ∀ {v v' : JValue}, Extends S v v' → partialEq kv.2 v = partialEq kv.2 v') →
      ∀ {fs gs : List (String × JValue)}, ExtendsFields S fs gs →
        fieldsMatch rest fs = fieldsMatch rest gs := by
  intro rest
  induction rest with
  | nil => intro _ fs gs _; simp [fieldsMatch]
  | cons kv rest0 ih =>
    intro hall fs gs h
    obtain ⟨k, v⟩ := kv
    obtain ⟨hS, hinv⟩ := hall (k, v) (List.mem_cons_self ..)
    rcases ExtendsFields_lookup hS h with ⟨h1, h2⟩ | ⟨v0, w0, h1, h2, h3⟩
    · simp [fieldsMatch, h1, h2]
    · simp only [fieldsMatch, h1, h2]
      rw [hinv h3, ih (fun kv' hkv' => hall kv' (List.mem_cons_of_mem _ hkv')) h]

/-- Main invariance: the partial comparison of a fixed rule-side value
against a task value is unchanged when the task value is extended with
fields whose names the rule never looks up. -/
theorem partialEq_extends {S : String → Prop} :
    ∀ (n : Nat) (src : JValue), sizeOf src ≤ n → (∀ k ∈ jkeys src, S k) →
      ∀ {v v' : JValue}, Extends S v v' → partialEq src v = partialEq src v' := by
  intro n
  induction n using Nat.strong_induction_on with
  | _ n IH =>
    intro src hsize hkeys v v' h
    match src with
    | .null => cases h <;> simp [partialEq]
    | .bool b => cases h <;> simp [partialEq]
    | .num m => cases h <;> simp [partialEq]
    | .str s => cases h <;> simp [partialEq]
    | .arr xs =>
      cases h with
      | null => simp [partialEq]
      | bool b => simp [partialEq]
      | num m => simp [partialEq]
      | str s2 => simp [partialEq]
      | obj hf => simp [partialEq]
      | @arr o o' hlist =>
        have hall : ∀ x ∈ xs, ∀ {v v' : JValue}, Extends S v v' →
            partialEq x v = partialEq x v' := by
          intro x hx v1 v1' hvv
          have h1 : sizeOf x < sizeOf xs := List.sizeOf_lt_of_mem hx
          have h2 : sizeOf (JValue.arr xs) = 1 + sizeOf xs := by simp
          refine IH (sizeOf x) (by omega) x le_rfl ?_ hvv
          intro k hk
          refine hkeys k ?_
          rw [jkeys]
          exact jkeysList_sub hx hk
        simp only [partialEq]
        rw [ExtendsList_length hlist, greedyAll_extends xs hall hlist]
    | .obj fs =>
      cases h with
      | null => simp [partialEq]
      | bool b => simp [partialEq]
      | num m => simp [partialEq]
      | str s2 => simp [partialEq]
      | arr hl => simp [partialEq]
      | @obj o o' hfields =>
        simp only [partialEq]
        refine fieldsMatch_extends fs (fun kv hkv => ⟨?_, ?_⟩) hfields
        · refine hkeys kv.1 ?_
          rw [jkeys]
          obtain ⟨k0, v0⟩ := kv
          exact jkeysFields_key hkv
        · intro v1 v1' hvv
          have h1 : sizeOf kv < sizeOf fs := List.sizeOf_lt_of_mem hkv
          have h2 : sizeOf kv.2 ≤ sizeOf kv := by
            obtain ⟨k0, v0⟩ := kv
            simp
          have h3 : sizeOf (JValue.obj fs) = 1 + sizeOf fs := by simp
          refine IH (sizeOf kv.2) (by omega) kv.2 le_rfl ?_ hvv
          intro k hk
          refine hkeys k ?_
          rw [jkeys]
          obtain ⟨k0, v0⟩ := kv
          exact jkeysFields_val hkv hk

/-- Top-level invariance of `_.isMatch`: extending a task with fields whose
names appear nowhere among the keys a rule can look up leaves the match
result unchanged. -/
theorem isMatch_extends {S : String → Prop} (rule : JValue)
    (hS : ∀ k ∈ ruleKeys rule, S k) {t t' : JValue} (h : Extends S t t') :
    isMatch t rule = isMatch t' rule := by
  have hkey : ∀ kv ∈ matchData rule, S kv.1 := by
    intro kv hkv
    exact hS kv.1 (List.mem_append_left _ (List.mem_map_of_mem _ hkv))
  have hdeep : ∀ kv ∈ matchData rule, ∀ k ∈ jkeys kv.2, S k := by
    intro kv hkv k hk
    refine hS k (List.mem_append_right _ ?_)
    cases rule with
    | obj fs =>
      rw [matchData] at hkv
      rw [jkeys]
      obtain ⟨k0, v0⟩ := kv
      exact jkeysFields_val hkv hk
    | arr xs =>
      rw [matchData] at hkv
      obtain ⟨p, hp, rfl⟩ := List.mem_map.mp hkv
      rw [jkeys]
      exact jkeysList_sub (snd_mem_of_mem_enumFrom hp) hk
    | str s2 =>
      rw [matchData] at hkv
      obtain ⟨p, hp, rfl⟩ := List.mem_map.mp hkv
      simp [jkeys] at hk
    | null => simp [matchData] at hkv
    | bool b => simp [matchData] at hkv
    | num m => simp [matchData] at hkv
  have hloop : ∀ kv ∈ matchData rule,
      (match lookupKey t kv.1 with
       | some objValue =>
         if kv.2.isPrim then jbeq objValue kv.2 else partialEq kv.2 objValue
       | none => false) =
      (match lookupKey t' kv.1 with
       | some objValue =>
         if kv.2.isPrim then jbeq objValue kv.2 else partialEq kv.2 objValue
       | none => false) := by
    intro kv hkv
    have hlk : (lookupKey t kv.1 = none ∧ lookupKey t' kv.1 = none) ∨
        (∃ v w, lookupKey t kv.1 = some v ∧ lookupKey t' kv.1 = some w ∧
          Extends S v w) := by
      cases h with
      | null => exact Or.inl ⟨rfl, rfl⟩
      | bool b =>
        cases hb : lookupKey (.bool b) kv.1 with
        | none => exact Or.inl ⟨rfl, rfl⟩
        | some v => exact Or.inr ⟨v, v, rfl, rfl, Extends_refl S v⟩
      | num m =>
        cases hb : lookupKey (.num m) kv.1 with
        | none => exact Or.inl ⟨rfl, rfl⟩
        | some v => exact Or.inr ⟨v, v, rfl, rfl, Extends_refl S v⟩
      | str s2 =>
        cases hb : lookupKey (.str s2) kv.1 with
        | none => exact Or.inl ⟨rfl, rfl⟩
        | some v => exact Or.inr ⟨v, v, rfl, rfl, Extends_refl S v⟩
      | @arr xs ys hlist =>
        have := ExtendsList_enum_lookup kv.1 hlist 0
        simpa [lookupKey, matchData, List.enum] using this
      | @obj fs gs hfields =>
        have := ExtendsFields_lookup (hkey kv hkv) hfields
        simpa [lookupKey, matchData] using this
    rcases hlk with ⟨h1, h2⟩ | ⟨v, w, h1, h2, h3⟩
    · rw [h1, h2]
    · rw [h1, h2]
      by_cases hp : kv.2.isPrim = true
      · simp only [hp, if_true]
        exact jbeq_extends h3 kv.2 hp
      · have hp' : kv.2.isPrim = false := by simpa using hp
        simp only [hp', Bool.false_eq_true, if_false]
        exact partialEq_extends (sizeOf kv.2) kv.2 le_rfl (hdeep kv hkv) h3
  cases h with
  | null => rfl
  | bool b => rfl
  | num m => rfl
  | str s2 => rfl
  | arr hlist =>
    simp only [isMatch]
    exact listAll_congr hloop
  | obj hfields =>
    simp only [isMatch]
    exact listAll_congr hloop

/-- The probe loop returns false exactly when every probed instant — `now`
plus a whole number of 100 ms increments, while strictly before the
deadline — fails on both address families. -/
theorem waitForHost_false_iff (check4 check6 : Nat → Bool) (deadline : Nat) :
    ∀ now, waitForHostToBeAvailable check4 check6 deadline now = false ↔
      ∀ j, now + 100 * j < deadline →
        check4 (now + 100 * j) = false ∧ check6 (now + 100 * j) = false := by
  have main : ∀ fuel now, deadline - now ≤ fuel →
      (waitForHostToBeAvailable check4 check6 deadline now = false ↔
        ∀ j, now + 100 * j < deadline →
          check4 (now + 100 * j) = false ∧ check6 (now + 100 * j) = false) := by
    intro fuel
    induction fuel with
    | zero =>
      intro now hf
      have hge : deadline ≤ now := by omega
      rw [waitForHostToBeAvailable]
      have : ¬(now < deadline) := by omega
      simp only [this, if_false]
      constructor
      · intro _ j hj
        omega
      · intro _
        trivial
    | succ n ihn =>
      intro now hf
      rw [waitForHostToBeAvailable]
      by_cases hlt : now < deadline
      · simp only [hlt, if_true]
        by_cases h4 : check4 now
        · simp only [h4, if_true]
          constructor
          · intro hcon; cases hcon
          · intro hall
            have := (hall 0 (by omega)).1
            rw [Nat.mul_zero, Nat.add_zero] at this
            rw [h4] at this
            cases this
        · simp only [h4, Bool.false_eq_true, if_false]
          by_cases h6 : check6 now
          · simp only [h6, if_true]
            constructor
            · intro hcon; cases hcon
            · intro hall
              have := (hall 0 (by omega)).2
              rw [Nat.mul_zero, Nat.add_zero] at this
              rw [h6] at this
              cases this
          · simp only [h6, Bool.false_eq_true, if_false,
              AVAILABILITY_CHECK_INCREMENT_MS]
            rw [ihn (now + 100) (by omega)]
            constructor
            · intro hall j hj
              match j with
              | 0 =>
                rw [Nat.mul_zero, Nat.add_zero]
                exact ⟨by simpa using h4, by simpa using h6⟩
              | j + 1 =>
                have := hall j (by omega)
                constructor
                · rw [show now + 100 * (j + 1) = now + 100 + 100 * j by ring]
                  exact this.1
                · rw [show now + 100 * (j + 1) = now + 100 + 100 * j by ring]
                  exact this.2
            · intro hall j hj
              have := hall (j + 1) (by omega)
              constructor
              · rw [show now + 100 + 100 * j = now + 100 * (j + 1) by ring]
                exact this.1
              · rw [show now + 100 + 100 * j = now + 100 * (j + 1) by ring]
                exact this.2
      · simp only [hlt, if_false]
        constructor
        · intro _ j hj
          omega
        · intro _
          trivial
  intro now
  exact main (deadline - now) now (le_refl _)

/-! ## Claims -/

/-- Claim C5: the availability wait returns true as soon as a connect
attempt on either family succeeds at a probed instant before the deadline —
IPv4 tried first, then IPv6, in each iteration — sleeps a fixed 100 ms
between iterations, and returns false exactly when every probed instant
before the deadline fails on both families (so never while an instant
before the deadline could still succeed); once the deadline is reached it
returns false. Connection errors are absorbed by `checkSocket` into a
`false` result (the oracle is total), never propagated as a fault. -/
theorem claim_C5_wait_for_host (check4 check6 : Nat → Bool) (deadline now : Nat) :
    (waitForHostToBeAvailable check4 check6 deadline now = false ↔
      ∀ j, now + 100 * j < deadline →
        check4 (now + 100 * j) = false ∧ check6 (now + 100 * j) = false) ∧
    (now < deadline → check4 now = true →
      waitForHostToBeAvailable check4 check6 deadline now = true) ∧
    (now < deadline → check4 now = false → check6 now = true →
      waitForHostToBeAvailable check4 check6 deadline now = true) ∧
    (deadline ≤ now → waitForHostToBeAvailable check4 check6 deadline now = false) := by
  refine ⟨waitForHost_false_iff check4 check6 deadline now, ?_, ?_, ?_⟩
  · intro hlt h4
    rw [waitForHostToBeAvailable]
    simp [hlt, h4]
  · intro hlt h4 h6
    rw [waitForHostToBeAvailable]
    simp [hlt, h4, h6]
  · intro hge
    rw [waitForHostToBeAvailable]
    have : ¬(now < deadline) := by omega
    simp [this]

/-- Witness for C5: with IPv4 closed and IPv6 accepting, the probe succeeds
within the deadline; with both families always failing, it reports false. -/
theorem claim_C5_witness :
    ((0 : Nat) < 1000 ∧
      waitForHostToBeAvailable (fun _ => false) (fun _ => true) 1000 0 = true) ∧
      waitForHostToBeAvailable (fun _ => false) (fun _ => false) 1000 0 = false :=
  ⟨⟨by omega,
      (claim_C5_wait_for_host (fun _ => false) (fun _ => true) 1000 0).2.2.1
        (by omega) rfl rfl⟩,
    (claim_C5_wait_for_host (fun _ => false) (fun _ => false) 1000 0).1.mpr
      (fun j _ => ⟨rfl, rfl⟩)⟩

/-- Claim C10: the empty rule object deep-subset-matches every task
descriptor, so any rule list containing an empty object makes
`taskMatchesCriteria` return true for every task — an empty criteria rule
disables filtering rather than matching nothing. -/
theorem claim_C10_empty_rule_matches_all (task : JValue) (rules : List JValue)
    (h : JValue.obj [] ∈ rules) : taskMatchesCriteria task rules = true := by
  rw [taskMatchesCriteria, List.any_eq_true]
  exact ⟨_, h, isMatch_emptyObj task⟩

/-- Witness for C10 at a concrete task and rule list. -/
theorem claim_C10_witness :
    JValue.obj [] ∈ [JValue.obj [("x", JValue.num 1)], JValue.obj []] ∧
      taskMatchesCriteria (.obj [("name", .str "serve")])
        [JValue.obj [("x", JValue.num 1)], JValue.obj []] = true :=
  ⟨by simp, claim_C10_empty_rule_matches_all _ _ (by simp)⟩

/-- Claim C4 counterexample: a malformed (non-object) rule — here the number
5 — does not fail to match: it has no own enumerable properties, so
`_.isMatch` accepts any task against it and `taskMatchesCriteria` returns
true, where the claim requires false. -/
theorem claim_C4_counterexample :
    taskMatchesCriteria (.obj [("name", .str "build")]) [.num 5] = true := by
  simp [taskMatchesCriteria, isMatch, matchData]

/-- Claim C4 as amended: a malformed rule raises no error (the matcher is
total); a number, boolean or null rule has no own enumerable properties and
therefore vacuously matches every task (rather than never matching); and
each rule in a larger list contributes independently through the
disjunction, so a malformed rule never affects what other rules contribute. -/
theorem claim_C4_amended (task : JValue) (n : Int) (b : Bool) (r : JValue)
    (rest : List JValue) :
    taskMatchesCriteria task [.num n] = true ∧
    taskMatchesCriteria task [.bool b] = true ∧
    taskMatchesCriteria task [.null] = true ∧
    taskMatchesCriteria task (r :: rest) =
      (isMatch task r || taskMatchesCriteria task rest) := by
  refine ⟨?_, ?_, ?_, taskMatchesCriteria_cons task r rest⟩ <;>
  · simp only [taskMatchesCriteria, List.any_cons, List.any_nil, Bool.or_false]
    exact isMatch_keyless _ _ rfl

/-- Claim C7: the scope-key function maps both the Global and the Workspace
scope to the fixed sentinel string "global", and each Folder scope to that
folder's unique location string, so any two distinct folders receive
distinct keys. -/
theorem claim_C7_scope_keys :
    keyFromScope .global = some "global" ∧
    keyFromScope .workspace = some "global" ∧
    (∀ u, keyFromScope (.folder u) = some u) ∧
    (∀ u v, u ≠ v → keyFromScope (.folder u) ≠ keyFromScope (.folder v)) := by
  refine ⟨rfl, rfl, fun u => rfl, fun u v huv h => huv ?_⟩
  simpa [keyFromScope, isWorkspaceTaskScope] using h

/-- Witness for C7 at two concrete distinct folders. -/
theorem claim_C7_witness :
    ("a" : String) ≠ "b" ∧
      keyFromScope (.folder "a") ≠ keyFromScope (.folder "b") :=
  ⟨by decide, claim_C7_scope_keys.2.2.2 "a" "b" (by decide)⟩

/-- Claim C3 counterexample: the rule's array `[2]` is a proper subset of the
task's array field `[1, 2]`, yet `taskMatchesCriteria` returns true — lodash
compares array-valued fields under the partial and unordered flags, not by
full equality, so a rule array that is a proper sub-multiset of the task's
array matches (and even out of order). -/
theorem claim_C3_counterexample :
    taskMatchesCriteria (.obj [("args", .arr [.num 1, .num 2])])
      [.obj [("args", .arr [.num 2])]] = true := by
  simp [taskMatchesCriteria, isMatch, matchData, lookupKey, List.lookup, JValue.isPrim,
    partialEq, fieldsMatch, greedyAll, extractFirst]

/-- Claim C3 as amended: an array-valued rule field matches when each of its
elements greedily claims a distinct partially-equal element of the task's
array; full equality of the arrays is sufficient (on well-formed data) but
not necessary. What remains of the claim is the length bound: the rule's
array can never be longer than the task's, so a rule whose array strictly
contains the task's array value never matches. -/
theorem claim_C3_amended (k : String) (s o : List JValue) :
    (taskMatchesCriteria (.obj [(k, .arr o)]) [.obj [(k, .arr s)]] = true →
      s.length ≤ o.length) ∧
    (wfJ (.arr o) = true →
      taskMatchesCriteria (.obj [(k, .arr o)]) [.obj [(k, .arr o)]] = true) := by
  constructor
  · intro h
    simp only [taskMatchesCriteria, List.any_cons, List.any_nil, Bool.or_false,
      isMatch, matchData, lookupKey, List.lookup, beq_self_eq_true, if_pos,
      List.all_cons, List.all_nil, Bool.and_true, JValue.isPrim] at h
    simp [partialEq] at h
    exact h.1
  · intro hwf
    simp only [taskMatchesCriteria, List.any_cons, List.any_nil, Bool.or_false,
      isMatch, matchData, lookupKey, List.lookup, beq_self_eq_true, if_pos,
      List.all_cons, List.all_nil, Bool.and_true, JValue.isPrim]
    exact partialEq_refl (.arr o) hwf

/-- Witness for the amended C3: the rule array `[2]` matches the task array
`[1, 2]` (so the length bound applies with 1 ≤ 2), and the task's own array
matches itself. -/
theorem claim_C3_amended_witness :
    ([JValue.num 2].length ≤ [JValue.num 1, JValue.num 2].length) ∧
      taskMatchesCriteria (.obj [("z", .arr [.num 1, .num 2])])
        [.obj [("z", .arr [.num 1, .num 2])]] = true :=
  ⟨(claim_C3_amended "z" [.num 2] [.num 1, .num 2]).1
      (by simp [taskMatchesCriteria, isMatch, matchData, lookupKey, List.lookup,
        JValue.isPrim, partialEq, fieldsMatch, greedyAll, extractFirst]),
    (claim_C3_amended "z" [] [.num 1, .num 2]).2
      (by simp [wfJ, wfList])⟩

/-- Claim C1 counterexample: with task `{a: [1, 2]}` and the single rule
`{a: [1]}`, `taskMatchesCriteria` returns true although no rule in the list
deep-subset-matches the task in the claim's sense — the rule's field value
`[1]` is present in the task but not with an equal value (`[1, 2]`) — so the
"if and only if" fails in the only-if direction. -/
theorem claim_C1_counterexample :
    taskMatchesCriteria (.obj [("a", .arr [.num 1, .num 2])])
        [.obj [("a", .arr [.num 1])]] = true ∧
      (([.obj [("a", .arr [.num 1])]] : List JValue).any
        (fun r => specDeepSubsetMatch r (.obj [("a", .arr [.num 1, .num 2])]))) = false := by
  constructor
  · simp [taskMatchesCriteria, isMatch, matchData, lookupKey, List.lookup, JValue.isPrim,
      partialEq, fieldsMatch, greedyAll, extractFirst]
  · simp [specDeepSubsetMatch, specFieldsMatch, lookupKey, matchData, List.lookup,
      jbeq, jbeqList]

/-- Claim C1 as amended: `taskMatchesCriteria(T, R)` returns true if and
only if at least one rule in R matches T under lodash's partial deep
comparison — every property present in the rule is present in T with a
partially-equal value: equal primitive leaves, recursion into object-valued
fields, array-valued fields matched as unordered greedy sub-multisets, and
rules without own properties matching vacuously. Moreover, for any T'
obtained from T by adding fields whose names are mentioned in no rule of R,
the result is unchanged — in particular it never flips from true to false. -/
theorem claim_C1_amended (task task' : JValue) (rules : List JValue)
    (hext : Extends (fun k => ∃ r ∈ rules, k ∈ ruleKeys r) task task') :
    (taskMatchesCriteria task rules = true ↔ ∃ r ∈ rules, isMatch task r = true) ∧
    taskMatchesCriteria task rules = taskMatchesCriteria task' rules := by
  constructor
  · simp [taskMatchesCriteria, List.any_eq_true]
  · unfold taskMatchesCriteria
    refine listAny_congr fun r hr => ?_
    exact isMatch_extends r (fun k hk => ⟨r, hr, hk⟩) hext

/-- Witness for the amended C1: adding the unmentioned field "b" to the task
leaves the match result unchanged. -/
theorem claim_C1_witness :
    taskMatchesCriteria (.obj [("a", .num 1)]) [.obj [("a", .num 1)]] =
      taskMatchesCriteria (.obj [("a", .num 1), ("b", .num 2)])
        [.obj [("a", .num 1)]] :=
  (claim_C1_amended (.obj [("a", .num 1)]) (.obj [("a", .num 1), ("b", .num 2)])
      [.obj [("a", .num 1)]]
      (Extends.obj (ExtendsFields.keep (Extends.num 1)
        (ExtendsFields.insert
          (by simp [ruleKeys, matchData, jkeys, jkeysFields, jkeysList])
          ExtendsFields.nil)))).2

/-- Claim C2 counterexample: with already-running matching tasks in folders
"A" and "B", construction seeds only folder "A" — the scope of the first
match in the snapshot — to 1; folder "B" also contains an already-running
matching task, yet its occurrence counter is 0, where the claim requires
every such scope to be seeded to 1. (No event is emitted, as the empty
event list shows.) -/
theorem claim_C2_counterexample :
    constructTaskMonitor c2Resolver c2Executions =
        some (⟨true, [("A", 1)]⟩, []) ∧
      taskMatchesCriteria (JValue.obj []) (c2Resolver (.folder "B")).criteria = true ∧
      occGet [("A", 1)] "B" = 0 := by
  refine ⟨?_, ?_, ?_⟩
  · simp [constructTaskMonitor, isMatchingTaskRunning, c2Resolver, c2Executions,
      List.find?, taskMatchesCriteria, isMatch, matchData, keyFromScope,
      isWorkspaceTaskScope]
  · simp [c2Resolver, taskMatchesCriteria, isMatch, matchData]
  · simp [occGet, List.lookup]

/-- Claim C2 as amended: construction emits no event — events fire only for
task starts observed strictly after construction — and seeds at most one
counter: when some already-running task matches its scope's criteria, the
scope key of the first such task in the executions snapshot is seeded to 1
and no other scope is seeded (even one that also contains an already-running
matching task); with no running match, no counter is seeded at all. -/
theorem claim_C2_amended (resolver : ConfigResolver) (executions : List RunningTask)
    (st : TaskMonitorState) (evs : List MatchedExecutionOccured)
    (h : constructTaskMonitor resolver executions = some (st, evs)) :
    evs = [] ∧ st.subscribed = true ∧
    (∀ t, isMatchingTaskRunning resolver executions = some t →
      ∀ k, keyFromScope t.scope = some k → st.scopedOccurances = [(k, 1)]) ∧
    (isMatchingTaskRunning resolver executions = none → st.scopedOccurances = []) := by
  cases hf : isMatchingTaskRunning resolver executions with
  | none =>
    have hc : constructTaskMonitor resolver executions = some (⟨true, []⟩, []) := by
      simp [constructTaskMonitor, hf]
    rw [hc] at h
    injection h with h'
    have h1 : st = ⟨true, []⟩ := (congrArg Prod.fst h').symm
    have h2 : evs = [] := (congrArg Prod.snd h').symm
    subst h1; subst h2
    refine ⟨rfl, rfl, ?_, fun _ => rfl⟩
    intro t ht
    exact absurd ht (by simp)
  | some t =>
    cases hk : keyFromScope t.scope with
    | none =>
      have hc : constructTaskMonitor resolver executions = none := by
        simp [constructTaskMonitor, hf, hk]
      rw [hc] at h
      cases h
    | some key =>
      have hc : constructTaskMonitor resolver executions =
          some (⟨true, [(key, 1)]⟩, []) := by
        simp [constructTaskMonitor, hf, hk]
      rw [hc] at h
      injection h with h'
      have h1 : st = ⟨true, [(key, 1)]⟩ := (congrArg Prod.fst h').symm
      have h2 : evs = [] := (congrArg Prod.snd h').symm
      subst h1; subst h2
      refine ⟨rfl, rfl, fun t' ht' k' hk' => ?_, fun hnone => nomatch hnone⟩
      injection ht' with ht''
      subst ht''
      rw [hk] at hk'
      injection hk' with hkk
      rw [hkk]

/-- Witness for the amended C2: constructing over the C2 snapshot yields the
seeded state `[("A", 1)]`, an empty event list, and a live subscription. -/
theorem claim_C2_witness :
    ([] : List MatchedExecutionOccured) = [] ∧
      (⟨true, [("A", 1)]⟩ : TaskMonitorState).subscribed = true ∧
      (∀ t, isMatchingTaskRunning c2Resolver c2Executions = some t →
        ∀ k, keyFromScope t.scope = some k →
          (⟨true, [("A", 1)]⟩ : TaskMonitorState).scopedOccurances = [(k, 1)]) ∧
      (isMatchingTaskRunning c2Resolver c2Executions = none →
        (⟨true, [("A", 1)]⟩ : TaskMonitorState).scopedOccurances = []) :=
  claim_C2_amended c2Resolver c2Executions ⟨true, [("A", 1)]⟩ []
    (by simp [constructTaskMonitor, isMatchingTaskRunning, c2Resolver, c2Executions,
      List.find?, taskMatchesCriteria, isMatch, matchData, keyFromScope,
      isWorkspaceTaskScope])

/-- Claim C8 counterexample: disposing a monitor whose "global" counter is 3
leaves the occurrence map intact: `dispose` empties the subscription list
but never touches `scopedOccurances`, so the per-scope counters are
retained, where the claim says they are cleared. -/
theorem claim_C8_counterexample :
    dispose ⟨true, [("global", 3)]⟩ = ⟨false, [("global", 3)]⟩ ∧
      (dispose ⟨true, [("global", 3)]⟩).scopedOccurances ≠ [] := by
  exact ⟨rfl, by simp [dispose]⟩

/-- Claim C8 as amended: disposal unsubscribes from task-start notifications
(after which no further event is ever emitted and the state never changes),
but the occurrence map is retained untouched in the instance rather than
cleared — it is simply never read or written again. -/
theorem claim_C8_amended (resolver : ConfigResolver) (state : TaskMonitorState)
    (evs : List TaskStartEvent) :
    (dispose state).subscribed = false ∧
    (dispose state).scopedOccurances = state.scopedOccurances ∧
    runMonitor resolver (dispose state) evs = (dispose state, []) := by
  refine ⟨rfl, rfl, ?_⟩
  induction evs with
  | nil => rw [runMonitor]
  | cons e rest ih =>
    have hd : deliverTaskStart resolver (dispose state) e = (dispose state, none) := by
      simp [deliverTaskStart, dispose]
    rw [runMonitor, hd]
    simp [ih]

theorem occGet_occSet_same (m : List (String × Nat)) (k : String) (v : Nat) :
    occGet (occSet m k v) k = v := by
  induction m with
  | nil => simp [occSet, occGet, List.lookup]
  | cons p rest ih =>
    obtain ⟨k', v'⟩ := p
    by_cases h : k' = k
    · subst h; simp [occSet, occGet, List.lookup]
    · have hb : (k == k') = false := by
        simp [beq_eq_false_iff_ne]
        exact fun hc => h hc.symm
      simp only [occSet, if_neg h]
      simp only [occGet, List.lookup, hb]
      exact ih

theorem occGet_occSet_other (m : List (String × Nat)) (k k' : String) (v : Nat)
    (h : k' ≠ k) : occGet (occSet m k' v) k = occGet m k := by
  induction m with
  | nil =>
    have hb : (k == k') = false := by
      simp [beq_eq_false_iff_ne]
      exact fun hc => h hc.symm
    simp [occSet, occGet, List.lookup, hb]
  | cons p rest ih =>
    obtain ⟨k0, v0⟩ := p
    by_cases h0 : k0 = k'
    · subst h0
      have hb : (k == k0) = false := by
        simp [beq_eq_false_iff_ne]
        exact fun hc => h hc.symm
      simp [occSet, occGet, List.lookup, hb]
    · simp only [occSet, if_neg h0]
      by_cases hk0 : (k == k0) = true
      · simp [occGet, List.lookup, hk0]
      · simp only [occGet, List.lookup, Bool.not_eq_true] at *
        simp only [hk0]
        exact ih

/-- One delivered task-start notification either leaves the monitor state
unchanged with nothing emitted (not subscribed, mode-"matching" non-match,
or undefined scope), or increments the counter of the task's scope key and
emits the event carrying the new count. -/
theorem deliverTaskStart_cases (resolver : ConfigResolver) (state : TaskMonitorState)
    (e : TaskStartEvent) :
    deliverTaskStart resolver state e = (state, none) ∨
    (∃ key, keyFromScope e.scope = some key ∧
      deliverTaskStart resolver state e =
        ({ state with
            scopedOccurances := occSet state.scopedOccurances key
              (occGet state.scopedOccurances key + 1) },
          some ⟨occGet state.scopedOccurances key + 1, e.scope⟩)) := by
  by_cases hs : state.subscribed
  · by_cases hcond :
      (!taskMatchesCriteria e.task (resolver e.scope).criteria &&
        (resolver e.scope).mode == some "matching") = true
    · left
      simp [deliverTaskStart, handleTaskStarting, hs, hcond]
    · have hcond' : (!taskMatchesCriteria e.task (resolver e.scope).criteria &&
          (resolver e.scope).mode == some "matching") = false := by
        simpa using hcond
      cases hk : keyFromScope e.scope with
      | none =>
        left
        simp [deliverTaskStart, handleTaskStarting, hs, hcond', hk]
      | some key =>
        right
        refine ⟨key, rfl, ?_⟩
        simp [deliverTaskStart, handleTaskStarting, hs, hcond', hk]
  · left
    simp [deliverTaskStart, hs]

/-- Unfolding one delivery step of `runMonitor`. -/
theorem runMonitor_cons (resolver : ConfigResolver) (state : TaskMonitorState)
    (e : TaskStartEvent) (rest : List TaskStartEvent) :
    runMonitor resolver state (e :: rest) =
      ((runMonitor resolver (deliverTaskStart resolver state e).1 rest).1,
        (deliverTaskStart resolver state e).2.toList ++
          (runMonitor resolver (deliverTaskStart resolver state e).1 rest).2) := rfl

/-- Run invariant: every event emitted for scope key `k` carries a count
strictly above the counter the run started from, and the events emitted for
scope key `k` carry strictly increasing counts, in emission order. -/
theorem runMonitor_occ_invariant (resolver : ConfigResolver) (k : String) :
    ∀ (evs : List TaskStartEvent) (state : TaskMonitorState),
      (∀ ev ∈ (runMonitor resolver state evs).2,
        keyFromScope ev.scope = some k →
          occGet state.scopedOccurances k < ev.occurances) ∧
      ((runMonitor resolver state evs).2.filter
          (fun ev => keyFromScope ev.scope == some k)).Pairwise
        (fun a b => a.occurances < b.occurances) := by
  intro evs
  induction evs with
  | nil => intro state; simp [runMonitor]
  | cons e rest ih =>
    intro state
    rcases deliverTaskStart_cases resolver state e with hd | ⟨key, hkey, hd⟩
    · rw [runMonitor_cons, hd]
      simpa using ih state
    · rw [runMonitor_cons, hd]
      simp only [Option.toList_some, List.singleton_append]
      obtain ⟨ih1, ih2⟩ := ih { state with
        scopedOccurances := occSet state.scopedOccurances key
          (occGet state.scopedOccurances key + 1) }
      by_cases hkk : key = k
      · subst hkk
        have hget : occGet (occSet state.scopedOccurances key
            (occGet state.scopedOccurances key + 1)) key =
            occGet state.scopedOccurances key + 1 := occGet_occSet_same _ _ _
        constructor
        · intro ev hev hevk
          rcases List.mem_cons.mp hev with rfl | hev'
          · simp
          · have := ih1 ev hev' hevk
            rw [hget] at this
            omega
        · rw [List.filter_cons]
          have hpred : ((keyFromScope
              (MatchedExecutionOccured.mk (occGet state.scopedOccurances key + 1)
                e.scope).scope == some key)) = true := by
            simpa using hkey
          simp only [hpred, if_pos]
          refine List.Pairwise.cons ?_ ih2
          intro b hb
          obtain ⟨hbmem, hbpred⟩ := List.mem_filter.mp hb
          have hbk : keyFromScope b.scope = some key := by simpa using hbpred
          have := ih1 b hbmem hbk
          rw [hget] at this
          simpa using by omega
      · have hget : occGet (occSet state.scopedOccurances key
            (occGet state.scopedOccurances key + 1)) k =
            occGet state.scopedOccurances k := occGet_occSet_other _ _ _ _ hkk
        constructor
        · intro ev hev hevk
          rcases List.mem_cons.mp hev with rfl | hev'
          · exfalso
            simp only at hevk
            rw [hkey] at hevk
            exact hkk (Option.some.inj hevk)
          · have := ih1 ev hev' hevk
            rw [hget] at this
            exact this
        · rw [List.filter_cons]
          have hpred : ((keyFromScope
              (MatchedExecutionOccured.mk (occGet state.scopedOccurances key + 1)
                e.scope).scope == some k)) = false := by
            simp only [MatchedExecutionOccured.mk.injEq]
            simp [hkey, hkk]
          simp only [hpred, Bool.false_eq_true, if_false]
          exact ih2

/-- In a strictly increasing list of events whose counts are all at least 1,
at most one event has a count below 2. -/
theorem filter_lt_two_length (l : List MatchedExecutionOccured) :
    (∀ ev ∈ l, 1 ≤ ev.occurances) →
    l.Pairwise (fun a b => a.occurances < b.occurances) →
    (l.filter (fun ev => decide (ev.occurances < 2))).length ≤ 1 := by
  induction l with
  | nil => intro _ _; simp
  | cons a l ih =>
    intro hpos hpw
    by_cases ha : a.occurances < 2
    · have hcons : (a :: l).filter (fun ev => decide (ev.occurances < 2)) =
          a :: l.filter (fun ev => decide (ev.occurances < 2)) := by
        simp [List.filter_cons, ha]
      rw [hcons]
      have hnil : l.filter (fun ev => decide (ev.occurances < 2)) = [] := by
        rw [List.filter_eq_nil_iff]
        intro b hb
        have hlt := (List.pairwise_cons.mp hpw).1 b hb
        have h2 := hpos a (List.mem_cons_self ..)
        simp only [decide_eq_true_eq]
        omega
      rw [hnil]
      simp
    · have hcons : (a :: l).filter (fun ev => decide (ev.occurances < 2)) =
          l.filter (fun ev => decide (ev.occurances < 2)) := by
        simp [List.filter_cons, ha]
      rw [hcons]
      exact ih (fun ev hev => hpos ev (List.mem_cons_of_mem _ hev))
        (List.pairwise_cons.mp hpw).2

/-- Claim C6: under behavior OneTime a launch is attempted for an event
exactly when its occurrence count is strictly below 2; within one monitor
run the counts emitted for any one scope key are strictly increasing, so at
most one emitted event per scope key ever triggers a launch and no later
event for that key does. -/
theorem claim_C6_one_time_at_most_once (resolver : ConfigResolver)
    (state : TaskMonitorState) (evs : List TaskStartEvent) (k : String)
    (e : MatchedExecutionOccured) :
    shouldOpenBrowser (some "onetime") e = decide (e.occurances < 2) ∧
    ((runMonitor resolver state evs).2.filter
        (fun ev => keyFromScope ev.scope == some k)).Pairwise
      (fun a b => a.occurances < b.occurances) ∧
    ((runMonitor resolver state evs).2.filter
        (fun ev => shouldOpenBrowser (some "onetime") ev &&
          (keyFromScope ev.scope == some k))).length ≤ 1 := by
  obtain ⟨h1, h2⟩ := runMonitor_occ_invariant resolver k evs state
  refine ⟨rfl, h2, ?_⟩
  have hpos : ∀ ev ∈ (runMonitor resolver state evs).2.filter
      (fun ev => keyFromScope ev.scope == some k), 1 ≤ ev.occurances := by
    intro ev hev
    obtain ⟨hmem, hpred⟩ := List.mem_filter.mp hev
    have := h1 ev hmem (by simpa using hpred)
    omega
  have heq : (runMonitor resolver state evs).2.filter
      (fun ev => shouldOpenBrowser (some "onetime") ev &&
        (keyFromScope ev.scope == some k)) =
      ((runMonitor resolver state evs).2.filter
        (fun ev => keyFromScope ev.scope == some k)).filter
        (fun ev => decide (ev.occurances < 2)) := by
    rw [List.filter_filter]
    rfl
  rw [heq]
  exact filter_lt_two_length _ hpos h2

/-- Claim C9: on a task start, any resolved monitoring mode other than the
exact string "matching" — including "all", an unset value, or an invalid
string — causes the task to be treated as matched unconditionally: the
counter for the scope key is incremented and the event is emitted with the
new count, regardless of whether the task matches any criteria rule. -/
theorem claim_C9_non_matching_mode_always_emits (resolver : ConfigResolver)
    (state : TaskMonitorState) (e : TaskStartEvent) (k : String)
    (hmode : (resolver e.scope).mode ≠ some "matching")
    (hk : keyFromScope e.scope = some k) :
    handleTaskStarting resolver state e =
      some ({ state with
          scopedOccurances :=
            occSet state.scopedOccurances k (occGet state.scopedOccurances k + 1) },
        some { occurances := occGet state.scopedOccurances k + 1, scope := e.scope }) := by
  have hm : ((resolver e.scope).mode == some "matching") = false := by
    simpa using hmode
  simp [handleTaskStarting, hm, hk]

/-- Witness for C9: with no criteria configured and the mode unset, a task
start in the Global scope is counted and the event emitted. -/
theorem claim_C9_witness :
    (c9Resolver .global).mode ≠ some "matching" ∧
      handleTaskStarting c9Resolver ⟨true, []⟩ ⟨.obj [], .global⟩ =
        some (⟨true, [("global", 1)]⟩, some ⟨1, .global⟩) :=
  ⟨by simp [c9Resolver],
    claim_C9_non_matching_mode_always_emits c9Resolver ⟨true, []⟩ ⟨.obj [], .global⟩
      "global" (by simp [c9Resolver]) rfl⟩

end InnerLoopBuddy
